import Mathlib

/-!
Verification development for the notebook-sanitization scripts
(clean_notebooks_complete.py, capture_tag.py, refresh_tag.py,
download-notebook.py, download-lesson.py).

Lines of a notebook cell are embedded as `List Char`; the Python regular
expressions used by the scripts are embedded as executable scanning
functions with the exact leftmost / greedy semantics of `re.sub` and
`re.match` on the patterns that occur in the source.
-/

/-- A single source line of a notebook cell (a Python `str`). -/
abbrev Line := List Char

/-- Python whitespace for `str.strip()` and the regex class `\s`
(space, tab, newline, carriage return, vertical tab, form feed). -/
def isWS (c : Char) : Bool :=
  c = ' ' || c = '\t' || c = '\n' || c = '\r' || c = '\x0b' || c = '\x0c'

def notWS (c : Char) : Bool := !isWS c

/-- `str.lower()` (ASCII, which is all the scripts compare). -/
def lowerL (l : Line) : Line := l.map Char.toLower

/-- `str.lstrip()`. -/
def lstripL (l : Line) : Line := l.dropWhile isWS

/-- `str.rstrip()`. -/
def rstripL (l : Line) : Line := (l.reverse.dropWhile isWS).reverse

/-- `str.strip()`. -/
def stripL (l : Line) : Line := rstripL (lstripL l)

/-- Python's substring containment `pat in hay`. -/
def containsS (pat : Line) : Line → Bool
  | [] => pat.isEmpty
  | c :: t => pat.isPrefixOf (c :: t) || containsS pat t

/-- The apostrophe character (kept out of string literals). -/
def apos : Char := Char.ofNat 39

def jovianS : Line := "jovian".data

def pipInstallS : Line := "pip install".data

def commitS : Line := "jovian.commit".data

def cloneS : Line := "jovian clone".data

def qjovS : Line := "?jovian".data

def forumS : Line := "forum".data

def communityS : Line := "community".data

def forumPhrase1 : Line := "community forum".data

def forumPhrase2 : Line := "forum/c/".data

def forumPhrase3 : Line := "ask questions, discuss ideas and get help".data

def forumPhrase4 : Line := "jovian.com/forum".data

def savingWorkS : Line := "saving your work".data

def saveYourWorkS : Line := "save your work".data

def snapshotS : Line := "save a snapshot".data

/-- First deletable markdown sentence (with trailing period). -/
def saveSentence1 : Line := "Let".data ++ apos :: "s save our work before continuing.".data

/-- Second deletable markdown sentence (no trailing period). -/
def saveSentence2 : Line := "Let".data ++ apos :: "s save our work before continuing".data

/-- Characters opening a version-comparison suffix: the regex class `[><=!]`. -/
def isVerChar (c : Char) : Bool := c = '>' || c = '<' || c = '=' || c = '!'

/-- Match attempt, at the start of `l`, of the pattern
`\s+jovian(?:[><=!]=?\S+)?(?=\s|$)`; returns the number of characters the
match consumes.  The `\s+` run is forced to be the maximal whitespace run
(the next literal is the non-whitespace `j`), and the optional version
group either consumes the whole non-whitespace run after the comparison
character (which then satisfies the lookahead) or fails. -/
def try1ws (l : Line) : Option Nat :=
  let m := (l.takeWhile isWS).length
  if m = 0 then none
  else
    let l2 := l.drop m
    if jovianS.isPrefixOf l2 then
      let l3 := l2.drop 6
      match l3 with
      | [] => some (m + 6)
      | c :: _ =>
        if isVerChar c then
          let run := (l3.takeWhile notWS).length
          if 2 ≤ run then some (m + 6 + run) else none
        else if isWS c then some (m + 6) else none
    else none

/-- Scanning loop of `sub1`; the fuel argument only bounds the number of
steps (each step consumes at least one character, so `l.length` suffices). -/
def sub1Go : Nat → Line → Line
  | 0, l => l
  | _, [] => []
  | fuel + 1, c :: t =>
    match try1ws (c :: t) with
    | some n => sub1Go fuel ((c :: t).drop n)
    | none => c :: sub1Go fuel t

/-- `re.sub(r'\s+jovian(?:[><=!]=?\S+)?(?=\s|$)', '', line)`:
leftmost-first scan, skipping one character when no match starts here. -/
def sub1 (l : Line) : Line := sub1Go l.length l

/-- Match attempt, at the start of `l`, of
`jovian(?:[><=!]=?\S+)?\s+`; returns the consumed length. -/
def try2 (l : Line) : Option Nat :=
  if jovianS.isPrefixOf l then
    let l2 := l.drop 6
    match l2 with
    | [] => none
    | c :: _ =>
      if isVerChar c then
        let run := (l2.takeWhile notWS).length
        if 2 ≤ run then
          let ws := ((l2.drop run).takeWhile isWS).length
          if ws = 0 then none else some (6 + run + ws)
        else none
      else
        let ws := (l2.takeWhile isWS).length
        if ws = 0 then none else some (6 + ws)
  else none

def sub2Go : Nat → Line → Line
  | 0, l => l
  | _, [] => []
  | fuel + 1, c :: t =>
    match try2 (c :: t) with
    | some n => sub2Go fuel ((c :: t).drop n)
    | none => c :: sub2Go fuel t

/-- `re.sub(r'jovian(?:[><=!]=?\S+)?\s+', '', line)`. -/
def sub2 (l : Line) : Line := sub2Go l.length l

def collapseGo : Nat → Line → Line
  | 0, l => l
  | _, [] => []
  | fuel + 1, c :: t =>
    if isWS c then ' ' :: collapseGo fuel (t.dropWhile isWS)
    else c :: collapseGo fuel t

/-- `re.sub(r'\s+', ' ', line)`: collapse every whitespace run to one space. -/
def collapseWS (l : Line) : Line := collapseGo l.length l

/-- The full install-line rewrite applied by both cell cleaners. -/
def pipRewrite (l : Line) : Line := collapseWS (sub2 (sub1 l))

/-- Case-insensitive literal prefix test (pattern given in lowercase). -/
def ciPrefixB (pat : Line) (l : Line) : Bool := lowerL (l.take pat.length) == pat

/-- Match attempt, at the start of `l`, of
`\s+and\s+Save\s+Your\s+Work` with `re.IGNORECASE`; returns the consumed
length.  Each `\s+` run is forced maximal since a letter follows. -/
def tryHdr (l : Line) : Option Nat :=
  let w1 := (l.takeWhile isWS).length
  if w1 = 0 then none
  else
    let l1 := l.drop w1
    if ciPrefixB "and".data l1 then
      let l2 := l1.drop 3
      let w2 := (l2.takeWhile isWS).length
      if w2 = 0 then none
      else
        let l3 := l2.drop w2
        if ciPrefixB "save".data l3 then
          let l4 := l3.drop 4
          let w3 := (l4.takeWhile isWS).length
          if w3 = 0 then none
          else
            let l5 := l4.drop w3
            if ciPrefixB "your".data l5 then
              let l6 := l5.drop 4
              let w4 := (l6.takeWhile isWS).length
              if w4 = 0 then none
              else
                let l7 := l6.drop w4
                if ciPrefixB "work".data l7 then
                  some (w1 + 3 + w2 + 4 + w3 + 4 + w4 + 4)
                else none
            else none
        else none
    else none

def headerGo : Nat → Line → Line
  | 0, l => l
  | _, [] => []
  | fuel + 1, c :: t =>
    match tryHdr (c :: t) with
    | some n => headerGo fuel ((c :: t).drop n)
    | none => c :: headerGo fuel t

/-- `re.sub(r'\s+and\s+Save\s+Your\s+Work', '', line, flags=re.IGNORECASE)`. -/
def headerSub (l : Line) : Line := headerGo l.length l

/-- `re.match(r'^\d+\.', s)` used on already-stripped text: a nonempty
digit run followed by a period. -/
def isNumberedStart (l : Line) : Bool :=
  let s := stripL l
  let ds := s.takeWhile Char.isDigit
  !ds.isEmpty && ((s.drop ds.length).head? == some '.')

/-- The `(.*)$` tail of the renumbering pattern applied to `u`: `.*`
takes the maximal newline-free prefix, and `$` holds at the end of the
string or just before a final newline. -/
def renumTail (u : Line) : Option Line :=
  let u1 := u.takeWhile (fun c => c ≠ '\n')
  match u.drop u1.length with
  | [] => some u1
  | ['\n'] => some u1
  | _ => none

/-- Backtracking search for the `\s+` split of `re.match(r'^(\d+)\.\s+(.*)$', s)`:
`k` counts down from the maximal whitespace run after the period. -/
def renumFindWS (t : Line) : Nat → Option Line
  | 0 => none
  | k + 1 =>
    match renumTail (t.drop (k + 1)) with
    | some g2 => some g2
    | none => renumFindWS t k

/-- `re.match(r'^(\d+)\.\s+(.*)$', s)`, returning group 2 on success. -/
def renumMatch (s : Line) : Option Line :=
  let ds := s.takeWhile Char.isDigit
  if ds.isEmpty then none
  else
    match s.drop ds.length with
    | '.' :: t => renumFindWS t (t.takeWhile isWS).length
    | _ => none

def natToDecGo : Nat → Nat → Line
  | 0, _ => []
  | fuel + 1, n =>
    if n < 10 then [Char.ofNat (48 + n)]
    else natToDecGo fuel (n / 10) ++ [Char.ofNat (48 + n % 10)]

/-- Decimal digits of `n`, as written by the f-string `f"{n}. ..."`. -/
def natToDec (n : Nat) : Line := natToDecGo (n + 1) n

/-- Whether a line is rewritten by the renumbering pass. -/
def isNumItem (l : Line) : Bool := (renumMatch (lstripL l)).isSome

/-- The replacement line the renumbering pass emits for a matched line. -/
def fmtItem (n : Nat) (l : Line) : Line :=
  match renumMatch (lstripL l) with
  | some g2 =>
    List.replicate (l.length - (lstripL l).length) ' ' ++ natToDec n ++ '.' :: ' ' :: g2
  | none => l

/-- One step of the renumbering loop: state is `(current_num, in_list)`. -/
def renumStep (st : Nat × Bool) (l : Line) : (Nat × Bool) × Line :=
  match renumMatch (lstripL l) with
  | some g2 =>
    ((st.1 + 1, true),
      List.replicate (l.length - (lstripL l).length) ' ' ++ natToDec st.1 ++ '.' :: ' ' :: g2)
  | none =>
    if st.2 && !(stripL l).isEmpty && !(['-'].isPrefixOf (stripL l)) then ((1, false), l)
    else (st, l)

def renumGo (st : Nat × Bool) : List Line → List Line
  | [] => []
  | l :: t =>
    let r := renumStep st l
    r.2 :: renumGo r.1 t

/-- The list-renumbering pass over a rewritten markdown cell. -/
def renumber (ls : List Line) : List Line := renumGo (1, false) ls

def emptyPipGroupsGo : Nat → Line → Bool
  | 0, l => l.isEmpty
  | _, [] => true
  | fuel + 1, c :: t =>
    match c, t with
    | '-', '-' :: r =>
      if (r.takeWhile notWS).length = 0 then false
      else emptyPipGroupsGo fuel ((r.drop (r.takeWhile notWS).length).dropWhile isWS)
    | _, _ => false

/-- The `(?:--\S+\s*)*$` tail of the empty-pip-install pattern. -/
def emptyPipGroups (l : Line) : Bool := emptyPipGroupsGo l.length l

/-- `re.match(r'^!?\s*pip\s+install\s*(?:--\S+\s*)*$', s)` as a Boolean
(applied by the code cleaner to the stripped rewritten line). -/
def emptyPip (l : Line) : Bool :=
  let l1 := if ['!'].isPrefixOf l then l.drop 1 else l
  let l2 := l1.dropWhile isWS
  if "pip".data.isPrefixOf l2 then
    let l3 := l2.drop 3
    let w := (l3.takeWhile isWS).length
    if w = 0 then false
    else
      let l4 := l3.drop w
      if "install".data.isPrefixOf l4 then emptyPipGroups ((l4.drop 7).dropWhile isWS)
      else false
  else false

/-- The value of the Python loop variable `line` after the install-line
rewrite rule (the first rule of `clean_markdown_cell`). -/
def mdLine1 (l : Line) : Line :=
  if containsS pipInstallS l && containsS jovianS l then pipRewrite l else l

/-- The header-normalization guard: the (possibly pip-rewritten) line
starts with a hash and the ORIGINAL lowercase line mentions the
save-your-work phrase (the Python code tests the stale `line_lower`). -/
def mdHdrCond (l : Line) : Bool :=
  ['#'].isPrefixOf (mdLine1 l) && containsS saveYourWorkS (lowerL l)

/-- The value of `line` after the header-normalization rule. -/
def mdLine2 (l : Line) : Line :=
  if mdHdrCond l then headerSub (mdLine1 l) else mdLine1 l

/-- One line of `clean_markdown_cell`'s rule chain, evaluated before the
suppression check.  Returns `(emit, setSkip, modifiedContribution)`:
`emit = none` means the rule chain dropped the line (`continue`),
`setSkip` is whether the rule set `skip_until_blank`.  Note that the
forum rules and the header rule test `line_lower`, the lowercase of the
ORIGINAL line, while the clone and commit rules test the current
(possibly pip-rewritten / header-rewritten) line — exactly as in the
Python source. -/
def mdRules (l : Line) : Option Line × Bool × Bool :=
  let ll := lowerL l
  if containsS cloneS (mdLine1 l) || containsS qjovS (mdLine1 l) then
    (none, isNumberedStart (mdLine1 l), true)
  else if containsS commitS (mdLine2 l) then
    (none,
      isNumberedStart (mdLine2 l) ||
        (containsS savingWorkS ll || containsS saveYourWorkS ll || containsS snapshotS ll),
      true)
  else if containsS forumPhrase1 ll || containsS forumPhrase2 ll ||
      containsS forumPhrase3 ll || containsS forumPhrase4 ll then
    if isNumberedStart (mdLine2 l) then (none, true, true)
    else if containsS forumS ll then (none, false, true)
    else (some (mdLine2 l), false, true)
  else (some (mdLine2 l), false, (mdLine1 l != l) || mdHdrCond l)

/-- The per-line loop of `clean_markdown_cell`: carries the
`skip_until_blank` flag, returns `(cleaned_lines, modified)`. -/
def mdLoop (skip : Bool) : List Line → List Line × Bool
  | [] => ([], false)
  | l :: rest =>
    match mdRules l with
    | (none, sk, m) =>
      let r := mdLoop (skip || sk) rest
      (r.1, m || r.2)
    | (some out, _, m) =>
      if skip then
        let r := mdLoop (!(stripL out).isEmpty) rest
        (r.1, m || r.2)
      else
        let r := mdLoop skip rest
        (out :: r.1, m || r.2)

/-- `clean_markdown_cell` on the normalized line list: the rule loop
followed, when the cell was modified, by the renumbering pass. -/
def clean_markdown_cell (lines : List Line) : List Line × Bool :=
  let r := mdLoop false lines
  (if r.2 then renumber r.1 else r.1, r.2)

def commitCallS : Line := "jovian.commit()".data

def commitOpenS : Line := "jovian.commit(".data

def qcommitS : Line := "?jovian.commit".data

def importJovS : Line := "import jovian".data

def importJovSpS : Line := "import jovian ".data

def fromJovS : Line := "from jovian import".data

/-- The per-line loop of `clean_code_cell`.  `none` is the early
`return None, True, True` on a commit/help line; otherwise
`some (cleaned_lines, modified)`. -/
def codeLoop : List Line → Option (List Line × Bool)
  | [] => some ([], false)
  | l :: rest =>
    let ls := stripL l
    if ls == commitCallS || commitOpenS.isPrefixOf ls ||
        ls == qcommitS || qjovS.isPrefixOf ls then none
    else if ls == importJovS || importJovSpS.isPrefixOf ls then
      (codeLoop rest).map (fun r => (r.1, true))
    else if fromJovS.isPrefixOf ls then
      (codeLoop rest).map (fun r => (r.1, true))
    else if containsS pipInstallS l && containsS jovianS l then
      let ml := pipRewrite l
      if emptyPip (stripL ml) then (codeLoop rest).map (fun r => (r.1, true))
      else if ml != l then (codeLoop rest).map (fun r => (ml :: r.1, true))
      else (codeLoop rest).map (fun r => (l :: r.1, r.2))
    else (codeLoop rest).map (fun r => (l :: r.1, r.2))

/-- Python `all(line.strip() == '' for line in lines)`. -/
def allBlank (ls : List Line) : Bool := ls.all (fun l => (stripL l).isEmpty)

/-- `clean_code_cell` on the normalized line list: returns
`(cleaned_source, modified, should_delete)`; `cleaned_source = none`
embeds the Python `None` of the early-delete return. -/
def clean_code_cell (lines : List Line) : Option (List Line) × Bool × Bool :=
  match codeLoop lines with
  | none => (none, true, true)
  | some (cl, m) => (some cl, m, allBlank cl)

/-- The `cell_type` discriminator; `other` stands for any tag that is
neither `code` nor `markdown` (such cells are never touched). -/
inductive CT where
  | code : CT
  | markdown : CT
  | other : CT
deriving DecidableEq, Repr

/-- A cell's `source` field: either a single string or a list of line
strings. -/
inductive Src where
  | str : Line → Src
  | list : List Line → Src
deriving DecidableEq, Repr

/-- A notebook cell as the scripts see it: `source = none` embeds an
absent `source` key (`cell.get('source', [])`). -/
structure Cell where
  ctype : CT
  source : Option Src
deriving DecidableEq, Repr

/-- Python truthiness of `cell.get('source', [])`. -/
def truthySrc : Option Src → Bool
  | none => false
  | some (.str s) => !s.isEmpty
  | some (.list ls) => !ls.isEmpty

/-- The normalization `lines = cell_source if isinstance(cell_source, list)
else [cell_source]` performed by both cell cleaners. -/
def cellLines (c : Cell) : List Line :=
  match c.source with
  | none => []
  | some (.str s) => [s]
  | some (.list ls) => ls

/-- `cell_text = ''.join(cell_source) if isinstance(cell_source, list)
else cell_source`. -/
def flatText (c : Cell) : Line :=
  match c.source with
  | none => []
  | some (.str s) => s
  | some (.list ls) => ls.flatten

/-- The body of `clean_notebook`'s per-cell loop: `none` when the cell is
flagged for removal, otherwise the (possibly edited) cell. -/
def processCell (c : Cell) : Option Cell :=
  if truthySrc c.source = false then some c
  else
    match c.ctype with
    | .code =>
      match clean_code_cell (cellLines c) with
      | (_, _, true) => none
      | (cl, m, false) =>
        if m then some { c with source := some (.list (cl.getD [])) } else some c
    | .markdown =>
      let text := flatText c
      if stripL text = saveSentence1 ∨ stripL text = saveSentence2 then none
      else if containsS commitS text || containsS cloneS text || containsS qjovS text ||
          containsS pipInstallS text || containsS forumS (lowerL text) ||
          containsS communityS (lowerL text) then
        let r := clean_markdown_cell (cellLines c)
        if r.2 then some { c with source := some (.list r.1) } else some c
      else some c
    | .other => some c

/-- `clean_notebook`'s in-memory cell transformation: each cell is
independently edited or flagged, and flagged cells are removed (removal
by descending original index equals a filter). -/
def clean_notebook (cells : List Cell) : List Cell := cells.filterMap processCell

/-- Python `list.insert(i, x)` (clamps to append when `i ≥ len`). -/
def pyInsert (i : Nat) (x : Line) (l : List Line) : List Line :=
  l.take i ++ x :: l.drop i

/-- The three insertions of `fix_notebook` on the first cell's source:
`insert(2, tag); insert(3, "\n"); insert(4, "\n")`. -/
def fix_notebook (tag : Line) (src : List Line) : List Line :=
  pyInsert 4 "\n".data (pyInsert 3 "\n".data (pyInsert 2 tag src))

def pyReplaceGo (pat rep : Line) : Nat → Line → Line
  | 0, l => l
  | _, [] => []
  | fuel + 1, c :: t =>
    if pat.isEmpty then c :: t
    else if pat.isPrefixOf (c :: t) then
      rep ++ pyReplaceGo pat rep fuel ((c :: t).drop pat.length)
    else c :: pyReplaceGo pat rep fuel t

/-- Python `str.replace(old, new)` for a nonempty `old` (the only use is
the literal `"github.com"`). -/
def pyReplace (pat rep l : Line) : Line := pyReplaceGo pat rep l.length l

def ghS : Line := "github.com".data

def colabGhS : Line := "colab.research.google.com/github".data

/-- `generate_colab_tag`: the three-line HTML block, as the single
string built by the f-string in the source. -/
def generate_colab_tag (githubUrl : Line) : Line :=
  "<a target=\"_blank\" href=\"".data ++ pyReplace ghS colabGhS githubUrl ++
    "\">\n  <img src=\"https://colab.research.google.com/assets/colab-badge.svg\" alt=\"Open In Colab\"/>\n</a>".data

def anchorOpenS : Line := "<a target=\"_blank\" href=\"".data

def colabHostS : Line := "colab.research.google.com".data

def closeAS : Line := "</a>".data

/-- The opening-anchor test of `remove_colab_tag`. -/
def isAnchorLine (l : Line) : Bool := containsS anchorOpenS l && containsS colabHostS l

/-- Lines removed from the anchor line onwards: everything through the
first line containing the closing tag, then all immediately following
blank lines; if no closing tag occurs, everything to the end. -/
def dropBlock : List Line → List Line
  | [] => []
  | l :: t =>
    if containsS closeAS l then t.dropWhile (fun u => (stripL u).isEmpty)
    else dropBlock t

/-- `remove_colab_tag` on the first cell's source lines: scan for the
first anchor line, remove its block, stop scanning. -/
def remove_colab_tag : List Line → List Line
  | [] => []
  | l :: t => if isAnchorLine l then dropBlock (l :: t) else l :: remove_colab_tag t

/-- `fix_notebook` at the `source` field: a string-valued source has no
`insert` method, so the call raises (`none`); a list is updated. -/
def fixNotebookSrc (tag : Line) : Src → Option Src
  | .str _ => none
  | .list ls => some (.list (fix_notebook tag ls))

/-- Result of one network attempt: a normal response, an `HTTPError`
(protocol/status error), or a `URLError` (transient connectivity error). -/
inductive Outcome where
  | success : Outcome
  | httpError : Outcome
  | urlError : Outcome
deriving DecidableEq, Repr

/-- Observable behaviour of one retry loop: whether it returned
normally, how many attempts were made, and the list of sleeps (seconds)
between attempts. -/
structure FetchResult where
  ok : Bool
  attempts : Nat
  sleeps : List Nat
deriving DecidableEq, Repr

/-- Retry recursion with the remaining retry budget as fuel: at fuel 0,
`attempt >= retries` holds, so a `URLError` is fatal; otherwise a
`URLError` records the `2 ** (attempt - 1)` second sleep and retries. -/
def fetchGo (oracle : Nat → Outcome) : Nat → Nat → FetchResult
  | 0, attempt =>
    match oracle attempt with
    | .success => ⟨true, attempt, []⟩
    | .httpError => ⟨false, attempt, []⟩
    | .urlError => ⟨false, attempt, []⟩
  | fuel + 1, attempt =>
    match oracle attempt with
    | .success => ⟨true, attempt, []⟩
    | .httpError => ⟨false, attempt, []⟩
    | .urlError =>
      let r := fetchGo oracle fuel (attempt + 1)
      ⟨r.ok, r.attempts, 2 ^ (attempt - 1) :: r.sleeps⟩

/-- The retry loop shared verbatim by `fetch_notebook_metadata`,
`download_file` and `fetch_html`: `attempt` is 1-based; an `HTTPError`
raises immediately; a `URLError` raises once `attempt >= retries`,
else sleeps `2 ** (attempt - 1)` seconds and retries.  The remaining
budget `retries - attempt` drives the recursion. -/
def fetchLoop (oracle : Nat → Outcome) (retries : Nat) (attempt : Nat) : FetchResult :=
  fetchGo oracle (retries - attempt) attempt

/-- `fetch_notebook_metadata`'s request loop (download-notebook.py). -/
def fetch_notebook_metadata (oracle : Nat → Outcome) (retries : Nat) : FetchResult :=
  fetchLoop oracle retries 1

/-- `download_file`'s request loop (download-notebook.py). -/
def download_file (oracle : Nat → Outcome) (retries : Nat) : FetchResult :=
  fetchLoop oracle retries 1

/-- `fetch_html`'s request loop (download-lesson.py). -/
def fetch_html (oracle : Nat → Outcome) (retries : Nat) : FetchResult :=
  fetchLoop oracle retries 1

/-- Cells on which a single sanitizer pass is already stable: code cells
with no line mentioning the removed dependency at all, markdown cells
whose flattened text contains none of the classifier trigger substrings,
and cells of any other type. -/
def tameCell (c : Cell) : Bool :=
  match c.ctype with
  | CT.code => (cellLines c).all (fun l => !(containsS jovianS l))
  | CT.markdown =>
    !(containsS jovianS (flatText c)) && !(containsS pipInstallS (flatText c)) &&
      !(containsS forumS (lowerL (flatText c))) &&
      !(containsS communityS (lowerL (flatText c)))
  | CT.other => true

/-! The theorems below settle the claims about the embedded scripts,
together with the supporting lemmas they rely on. -/

theorem try1ws_pos {l : Line} {n : Nat} (h : try1ws l = some n) : 0 < n := by
  simp only [try1ws] at h
  split at h
  · exact absurd h (by simp)
  · split at h
    · split at h
      · simp at h
        omega
      · split at h
        · split at h
          · simp at h
            omega
          · exact absurd h (by simp)
        · split at h
          · simp at h
            omega
          · exact absurd h (by simp)
    · exact absurd h (by simp)

theorem try2_pos {l : Line} {n : Nat} (h : try2 l = some n) : 0 < n := by
  simp only [try2] at h
  split at h
  · split at h
    · exact absurd h (by simp)
    · split at h
      · split at h
        · split at h
          · exact absurd h (by simp)
          · simp at h
            omega
        · exact absurd h (by simp)
      · split at h
        · exact absurd h (by simp)
        · simp at h
          omega
  · exact absurd h (by simp)

theorem tryHdr_pos {l : Line} {n : Nat} (h : tryHdr l = some n) : 0 < n := by
  simp only [tryHdr] at h
  repeat' split at h
  all_goals simp_all
  omega

theorem containsS_spec {p l : Line} : containsS p l = true ↔ p <:+: l := by
  induction l with
  | nil =>
    constructor
    · intro h
      have hp : p = [] := by simpa [containsS, List.isEmpty_iff] using h
      subst hp
      exact List.infix_refl _
    · intro h
      have hp : p = [] := by
        obtain ⟨s, t, hst⟩ := h
        exact (List.append_eq_nil.1 ((List.append_eq_nil.1 hst).1)).2
      simp [containsS, hp]
  | cons c t ih =>
    simp only [containsS, Bool.or_eq_true, List.isPrefixOf_iff_prefix, ih,
      List.infix_cons_iff]

theorem containsS_mono {p q l : Line} (hq : q <:+: l) (h : containsS p q = true) :
    containsS p l = true := by
  rw [containsS_spec] at h ⊢
  exact h.trans hq

theorem lstripL_suffix (l : Line) : lstripL l <:+ l := List.dropWhile_suffix isWS

theorem rstripL_front (l : Line) : rstripL l <+: l := by
  have h : (l.reverse.dropWhile isWS).reverse <+: l.reverse.reverse :=
    List.reverse_prefix.2 (List.dropWhile_suffix isWS)
  simpa [rstripL] using h

theorem stripL_within (l : Line) : stripL l <:+: l :=
  ((rstripL_front (lstripL l)).isInfix).trans (lstripL_suffix l).isInfix

theorem containsS_of_strip {p l : Line} (h : containsS p (stripL l) = true) :
    containsS p l = true := containsS_mono (stripL_within l) h

theorem containsS_subset {p l : Line} (h : containsS p l = true) : ∀ c ∈ p, c ∈ l := by
  rw [containsS_spec] at h
  intro c hc
  exact h.sublist.subset hc

theorem stripL_isEmpty_allWS {l : Line} (h : (stripL l).isEmpty = true) :
    ∀ c ∈ l, isWS c = true := by
  have h2 : stripL l = [] := by simpa [List.isEmpty_iff] using h
  have h3 : (lstripL l).reverse.dropWhile isWS = [] := by
    have := congrArg List.reverse h2
    simpa [stripL, rstripL] using this
  have h4 : ∀ c ∈ lstripL l, isWS c = true := by
    intro c hc
    exact (List.dropWhile_eq_nil_iff).1 h3 c (by simpa using hc)
  intro c hc
  have hsplit : c ∈ l.takeWhile isWS ++ l.dropWhile isWS := by
    rw [List.takeWhile_append_dropWhile]
    exact hc
  rcases List.mem_append.1 hsplit with h5 | h5
  · exact List.mem_takeWhile_imp h5
  · exact h4 c h5

theorem containsS_flatten {p l : Line} {ls : List Line} (hm : l ∈ ls)
    (h : containsS p l = true) : containsS p ls.flatten = true :=
  containsS_mono (List.infix_of_mem_flatten hm) h

/-- C10: a code cell with a present, truthy source whose cleaned lines
are all blank after trimming is flagged for deletion by the sanitizer,
even when it never mentioned the removed dependency; a cell whose
source is absent or empty (falsy) is skipped before classification and
returned unchanged. -/
theorem c10_code_blank_deletion (c : Cell) (hc : c.ctype = CT.code) :
    (∀ cl m, truthySrc c.source = true → codeLoop (cellLines c) = some (cl, m) →
      allBlank cl = true → processCell c = none) ∧
    (truthySrc c.source = false → processCell c = some c) := by
  constructor
  · intro cl m ht hcl hb
    unfold processCell
    rw [ht, hc]
    simp [clean_code_cell, hcl, hb]
  · intro ht
    unfold processCell
    simp [ht]

theorem c10_witness :
    processCell ⟨CT.code, some (.list ["\n".data, "  ".data])⟩ = none ∧
    processCell ⟨CT.code, some (.list [])⟩ = some ⟨CT.code, some (.list [])⟩ :=
  ⟨(c10_code_blank_deletion _ rfl).1 ["\n".data, "  ".data] false (by decide) (by decide)
      (by decide),
    (c10_code_blank_deletion _ rfl).2 (by decide)⟩

/-- C4: a markdown cell is removed by the sanitizer exactly when its
flattened, trimmed text equals one of the two fixed save-work sentences
(case-sensitive whole-cell match); a markdown cell merely containing
"forum" somewhere without being such an exact match is never deleted. -/
theorem c4_markdown_delete_iff (c : Cell) (hc : c.ctype = CT.markdown) :
    (processCell c = none ↔
      stripL (flatText c) = saveSentence1 ∨ stripL (flatText c) = saveSentence2) ∧
    (containsS forumS (lowerL (flatText c)) = true →
      ¬(stripL (flatText c) = saveSentence1 ∨ stripL (flatText c) = saveSentence2) →
      (processCell c).isSome = true) := by
  have main : processCell c = none ↔
      stripL (flatText c) = saveSentence1 ∨ stripL (flatText c) = saveSentence2 := by
    by_cases ht : truthySrc c.source = true
    · unfold processCell
      rw [ht, hc]
      simp only [Bool.true_eq_false, if_false]
      by_cases hs : stripL (flatText c) = saveSentence1 ∨ stripL (flatText c) = saveSentence2
      · rw [if_pos hs]
        exact iff_of_true rfl hs
      · rw [if_neg hs]
        constructor
        · intro hnone
          exfalso
          split at hnone
          · split at hnone <;> exact Option.noConfusion hnone
          · exact Option.noConfusion hnone
        · intro h
          exact absurd h hs
    · have ht' : truthySrc c.source = false := by simpa using ht
      have hps : processCell c = some c := by
        unfold processCell
        rw [ht']
        simp
      have hflat : flatText c = [] := by
        rcases hsrc : c.source with _ | s
        · simp [flatText, hsrc]
        · rcases s with s | ls
          · have hsnil : s = [] := by
              have h0 := ht'
              rw [hsrc] at h0
              simpa [truthySrc, List.isEmpty_iff] using h0
            simp [flatText, hsrc, hsnil]
          · have hlnil : ls = [] := by
              have h0 := ht'
              rw [hsrc] at h0
              simpa [truthySrc, List.isEmpty_iff] using h0
            simp [flatText, hsrc, hlnil]
      rw [hps, hflat]
      constructor
      · intro h
        exact Option.noConfusion h
      · intro h
        exfalso
        rcases h with h | h <;> revert h <;> decide
  refine ⟨main, fun _ hns => ?_⟩
  exact Option.ne_none_iff_isSome.1 (fun h => hns (main.1 h))

theorem c4_witness :
    processCell ⟨CT.markdown, some (.list [saveSentence1])⟩ = none ∧
    (processCell ⟨CT.markdown, some (.list ["Ask the forum please\n".data])⟩).isSome = true :=
  ⟨(c4_markdown_delete_iff _ rfl).1.2 (by decide),
    (c4_markdown_delete_iff _ rfl).2 (by decide) (by decide)⟩

theorem fetchGo_all_transient (oracle : Nat → Outcome)
    (h : ∀ k, oracle k = Outcome.urlError) :
    ∀ (fuel attempt : Nat), 1 ≤ attempt →
      fetchGo oracle fuel attempt =
        ⟨false, attempt + fuel, (List.range fuel).map (fun i => 2 ^ (attempt - 1 + i))⟩ := by
  intro fuel
  induction fuel with
  | zero =>
    intro attempt _
    simp [fetchGo, h attempt]
  | succ k ih =>
    intro attempt h1
    unfold fetchGo
    rw [h attempt]
    simp only [ih (attempt + 1) (by omega), FetchResult.mk.injEq, true_and]
    refine ⟨by omega, ?_⟩
    rw [List.range_succ_eq_map, List.map_cons, List.map_map]
    refine List.cons_eq_cons.mpr ⟨by simp, List.map_congr_left ?_⟩
    intro i _
    simp only [Function.comp, Nat.succ_eq_add_one]
    congr 1
    omega

theorem fetchGo_success_after (oracle : Nat → Outcome) (j : Nat)
    (hj : oracle j = Outcome.success) :
    ∀ (fuel attempt : Nat), 1 ≤ attempt → attempt ≤ j → j ≤ attempt + fuel →
      (∀ k, attempt ≤ k → k < j → oracle k = Outcome.urlError) →
      fetchGo oracle fuel attempt =
        ⟨true, j, (List.range (j - attempt)).map (fun i => 2 ^ (attempt - 1 + i))⟩ := by
  intro fuel
  induction fuel with
  | zero =>
    intro attempt h0 h1 h2 hk
    have heq : attempt = j := by omega
    subst heq
    simp [fetchGo, hj]
  | succ k ih =>
    intro attempt h0 h1 h2 hk
    by_cases heq : attempt = j
    · subst heq
      simp [fetchGo, hj]
    · unfold fetchGo
      rw [hk attempt (le_refl _) (by omega)]
      simp only [ih (attempt + 1) (by omega) (by omega) (by omega)
        (fun m hm1 hm2 => hk m (by omega) hm2), FetchResult.mk.injEq, true_and]
      have hr : j - attempt = (j - (attempt + 1)) + 1 := by omega
      rw [hr, List.range_succ_eq_map, List.map_cons, List.map_map]
      refine List.cons_eq_cons.mpr ⟨by simp, List.map_congr_left ?_⟩
      intro i _
      simp only [Function.comp, Nat.succ_eq_add_one]
      congr 1
      omega

/-- C9: for each of the three network fetch loops, a protocol-level
`HTTPError` on the first attempt aborts immediately (one attempt, no
sleep, no retry); uninterrupted transient `URLError`s are retried with
sleeps doubling (1, 2, 4, ...) until the configured bound `retries` is
reached, at which point the failure becomes fatal; and a success at
attempt `j` after transient failures stops the loop at `j` attempts
with the doubling sleeps before it. -/
theorem c9_retry_policy (oracle : Nat → Outcome) (retries : Nat) :
    (oracle 1 = Outcome.httpError →
      fetch_notebook_metadata oracle retries = ⟨false, 1, []⟩ ∧
      download_file oracle retries = ⟨false, 1, []⟩ ∧
      fetch_html oracle retries = ⟨false, 1, []⟩) ∧
    ((∀ k, oracle k = Outcome.urlError) → 1 ≤ retries →
      fetch_notebook_metadata oracle retries =
        ⟨false, retries, (List.range (retries - 1)).map (fun i => 2 ^ i)⟩ ∧
      download_file oracle retries =
        ⟨false, retries, (List.range (retries - 1)).map (fun i => 2 ^ i)⟩ ∧
      fetch_html oracle retries =
        ⟨false, retries, (List.range (retries - 1)).map (fun i => 2 ^ i)⟩) ∧
    (∀ j, oracle j = Outcome.success → (∀ k, 1 ≤ k → k < j → oracle k = Outcome.urlError) →
      1 ≤ j → j ≤ retries →
      fetch_notebook_metadata oracle retries =
        ⟨true, j, (List.range (j - 1)).map (fun i => 2 ^ i)⟩ ∧
      download_file oracle retries = ⟨true, j, (List.range (j - 1)).map (fun i => 2 ^ i)⟩ ∧
      fetch_html oracle retries = ⟨true, j, (List.range (j - 1)).map (fun i => 2 ^ i)⟩) := by
  refine ⟨?_, ?_, ?_⟩
  · intro h
    have h0 : fetchLoop oracle retries 1 = ⟨false, 1, []⟩ := by
      unfold fetchLoop
      cases hf : retries - 1 <;> simp [fetchGo, h]
    exact ⟨h0, h0, h0⟩
  · intro h hr
    have h2 := fetchGo_all_transient oracle h (retries - 1) 1 (le_refl _)
    have h3 : fetchLoop oracle retries 1 =
        ⟨false, retries, (List.range (retries - 1)).map (fun i => 2 ^ i)⟩ := by
      unfold fetchLoop
      rw [h2]
      simp only [FetchResult.mk.injEq, true_and]
      refine ⟨by omega, List.map_congr_left ?_⟩
      intro i _
      simp
    exact ⟨h3, h3, h3⟩
  · intro j hj hk h1 h2
    have h4 := fetchGo_success_after oracle j hj (retries - 1) 1 (le_refl _) h1 (by omega)
      (fun m hm1 hm2 => hk m hm1 hm2)
    have h5 : fetchLoop oracle retries 1 =
        ⟨true, j, (List.range (j - 1)).map (fun i => 2 ^ i)⟩ := by
      unfold fetchLoop
      rw [h4]
      simp
    exact ⟨h5, h5, h5⟩

theorem c9_witness :
    fetch_notebook_metadata (fun _ => Outcome.urlError) 3 = ⟨false, 3, [1, 2]⟩ ∧
    fetch_html (fun _ => Outcome.httpError) 3 = ⟨false, 1, []⟩ := by
  constructor
  · have h := ((c9_retry_policy (fun _ => Outcome.urlError) 3).2.1 (fun _ => rfl)
      (by omega)).1
    exact h.trans (by decide)
  · exact ((c9_retry_policy (fun _ => Outcome.httpError) 3).1 rfl).2.2

theorem renumGo_all_items (ls : List Line) :
    ∀ (k : Nat) (b : Bool), (∀ l ∈ ls, isNumItem l = true) →
      renumGo (k, b) ls = ls.mapIdx (fun i l => fmtItem (k + i) l) := by
  induction ls with
  | nil => intro k b _; simp [renumGo]
  | cons hd tl ih =>
    intro k b h
    have hhd := h hd (by simp)
    obtain ⟨g2, hg2⟩ : ∃ g2, renumMatch (lstripL hd) = some g2 := by
      unfold isNumItem at hhd
      exact Option.isSome_iff_exists.1 hhd
    have hstep : renumStep (k, b) hd =
        ((k + 1, true),
          List.replicate (hd.length - (lstripL hd).length) ' ' ++
            natToDec k ++ '.' :: ' ' :: g2) := by
      unfold renumStep
      rw [hg2]
    have hfmt : fmtItem (k + 0) hd =
        List.replicate (hd.length - (lstripL hd).length) ' ' ++
          natToDec k ++ '.' :: ' ' :: g2 := by
      unfold fmtItem
      rw [hg2]
      simp
    rw [List.mapIdx_cons]
    show (renumStep (k, b) hd).2 :: renumGo (renumStep (k, b) hd).1 tl = _
    rw [hstep]
    simp only []
    rw [ih (k + 1) true (fun l hl => h l (by simp [hl]))]
    rw [hfmt]
    have harg : (fun i l => fmtItem (k + 1 + i) l) = (fun i l => fmtItem (k + (i + 1)) l) := by
      funext i l
      congr 1
      omega
    rw [harg]

/-- C6: the renumbering pass gives every line of an all-items run the
numbers 1, 2, ..., N in order (so removing an interior item leaves no
gap); while inside a list, a non-blank line that is neither a numbered
item nor a dash bullet resets the counter to 1 and ends the list; blank
lines and dash-bulleted lines leave the renumbering state unchanged. -/
theorem c6_renumbering (st : Nat × Bool) (l : Line) (ls : List Line) :
    ((∀ x ∈ ls, isNumItem x = true) →
      renumber ls = ls.mapIdx (fun i x => fmtItem (1 + i) x)) ∧
    (st.2 = true → isNumItem l = false → (stripL l).isEmpty = false →
      ['-'].isPrefixOf (stripL l) = false → renumStep st l = ((1, false), l)) ∧
    (isNumItem l = false →
      ((stripL l).isEmpty = true ∨ ['-'].isPrefixOf (stripL l) = true) →
      renumStep st l = (st, l)) := by
  refine ⟨fun h => renumGo_all_items ls 1 false h, ?_, ?_⟩
  · intro hin hni hnb hnd
    have hnone : renumMatch (lstripL l) = none := by
      unfold isNumItem at hni
      exact Option.not_isSome_iff_eq_none.1 (by simp [hni])
    unfold renumStep
    rw [hnone]
    simp [hin, hnb, hnd]
  · intro hni hbd
    have hnone : renumMatch (lstripL l) = none := by
      unfold isNumItem at hni
      exact Option.not_isSome_iff_eq_none.1 (by simp [hni])
    unfold renumStep
    rw [hnone]
    rcases hbd with hb | hb <;> simp [hb]

theorem c6_witness :
    renumber ["7. a".data, "9. b".data, "4. c".data] =
      ["1. a".data, "2. b".data, "3. c".data] ∧
    renumStep (5, true) "plain text".data = ((1, false), "plain text".data) ∧
    renumStep (5, true) "- dash item".data = ((5, true), "- dash item".data) := by
  refine ⟨?_, ?_, ?_⟩
  · have h := (c6_renumbering (1, false) [] ["7. a".data, "9. b".data, "4. c".data]).1
      (by decide)
    exact h.trans (by simp only [List.mapIdx_cons, List.mapIdx_nil]; decide)
  · exact (c6_renumbering (5, true) "plain text".data []).2.1 rfl (by decide) (by decide)
      (by decide)
  · exact (c6_renumbering (5, true) "- dash item".data []).2.2 (by decide)
      (Or.inr (by decide))

/-- C5 counterexample: in a markdown cell the install line whose only
package was the removed dependency is NOT dropped — the cell keeps the
rewritten, package-less line, unlike a code cell. -/
theorem c5_counterexample :
    processCell ⟨CT.markdown, some (.list ["pip install jovian".data])⟩ =
      some ⟨CT.markdown, some (.list ["pip install".data])⟩ := by decide

/-- C5 (amended): a line containing the install command and the removed
dependency is rewritten by stripping the dependency token (with any
version suffix) and collapsing whitespace in both cell kinds — the
spec's example rewrites exactly as stated; but a rewrite that leaves no
package arguments drops the line (and here deletes the then-empty cell)
only in code cells, while a markdown cell keeps the rewritten line. -/
theorem c5_install_rewrite :
    pipRewrite "pip install jovian pandas==2.0".data = "pip install pandas==2.0".data ∧
    clean_code_cell ["pip install jovian pandas==2.0".data] =
      (some ["pip install pandas==2.0".data], true, false) ∧
    clean_markdown_cell ["pip install jovian pandas==2.0".data] =
      (["pip install pandas==2.0".data], true) ∧
    processCell ⟨CT.code, some (.list ["pip install jovian".data])⟩ = none ∧
    clean_markdown_cell ["pip install jovian".data] = (["pip install".data], true) :=
  ⟨by decide, by decide, by decide, by decide, by decide⟩

theorem isWS_cases {c : Char} (h : isWS c = true) :
    c = ' ' ∨ c = '\t' ∨ c = '\n' ∨ c = '\r' ∨ c = '\x0b' ∨ c = '\x0c' := by
  simpa [isWS, decide_eq_true_eq, or_assoc] using h

theorem toLower_WS {c : Char} (h : isWS c = true) : Char.toLower c = c := by
  rcases isWS_cases h with h | h | h | h | h | h <;> subst h <;> decide

theorem lowerL_blank {l : Line} (hb : (stripL l).isEmpty = true) :
    ∀ c ∈ lowerL l, isWS c = true := by
  intro c hc
  obtain ⟨c', hc', rfl⟩ := List.mem_map.1 hc
  rw [toLower_WS (stripL_isEmpty_allWS hb c' hc')]
  exact stripL_isEmpty_allWS hb c' hc'

theorem containsS_false_of_allWS {p l : Line} (hall : ∀ c ∈ l, isWS c = true)
    {c : Char} (hc : c ∈ p) (hw : isWS c = false) : containsS p l = false := by
  by_contra hbad
  have h' : containsS p l = true := by simpa using hbad
  have := hall c (containsS_subset h' c hc)
  rw [this] at hw
  exact Bool.noConfusion hw

theorem prefix_mem {p l : Line} (h : p.isPrefixOf l = true) : ∀ c ∈ p, c ∈ l :=
  fun c hc => ( List.isPrefixOf_iff_prefix.1 h).sublist.subset hc

/-- An all-whitespace line passes every rule of the markdown rule chain
untouched: it is neither rewritten, dropped nor flagged. -/
theorem mdRules_blank {l : Line} (hb : (stripL l).isEmpty = true) :
    mdRules l = (some l, false, false) := by
  have hall := stripL_isEmpty_allWS hb
  have hlow := lowerL_blank hb
  have hpip : containsS pipInstallS l = false :=
    containsS_false_of_allWS hall (c := 'p') (by decide) (by decide)
  have hclone : containsS cloneS l = false :=
    containsS_false_of_allWS hall (c := 'j') (by decide) (by decide)
  have hq : containsS qjovS l = false :=
    containsS_false_of_allWS hall (c := '?') (by decide) (by decide)
  have hsave : containsS saveYourWorkS (lowerL l) = false :=
    containsS_false_of_allWS hlow (c := 's') (by decide) (by decide)
  have hcommit : containsS commitS l = false :=
    containsS_false_of_allWS hall (c := 'j') (by decide) (by decide)
  have hf1 : containsS forumPhrase1 (lowerL l) = false :=
    containsS_false_of_allWS hlow (c := 'c') (by decide) (by decide)
  have hf2 : containsS forumPhrase2 (lowerL l) = false :=
    containsS_false_of_allWS hlow (c := 'f') (by decide) (by decide)
  have hf3 : containsS forumPhrase3 (lowerL l) = false :=
    containsS_false_of_allWS hlow (c := 'a') (by decide) (by decide)
  have hf4 : containsS forumPhrase4 (lowerL l) = false :=
    containsS_false_of_allWS hlow (c := 'j') (by decide) (by decide)
  have h1 : mdLine1 l = l := by simp [mdLine1, hpip]
  have hh : mdHdrCond l = false := by simp [mdHdrCond, hsave]
  have h2 : mdLine2 l = l := by simp [mdLine2, hh, h1]
  unfold mdRules
  rw [h1, h2, hh]
  simp [hclone, hq, hcommit, hf1, hf2, hf3, hf4]

/-- A line that reaches the emission point unrewritten: if the line
contains no install directive and no save-your-work phrase, the emitted
line (when the rule chain emits) is the original line. -/
theorem mdRules_emit_eq {l out : Line} {s m : Bool}
    (hpip : containsS pipInstallS l = false)
    (hsave : containsS saveYourWorkS (lowerL l) = false)
    (h : mdRules l = (some out, s, m)) : out = l := by
  have h1 : mdLine1 l = l := by simp [mdLine1, hpip]
  have hh : mdHdrCond l = false := by simp [mdHdrCond, hsave]
  have h2 : mdLine2 l = l := by simp [mdLine2, hh, h1]
  unfold mdRules at h
  simp only [] at h
  rw [h1, h2] at h
  split at h
  · exact absurd h (by simp)
  · split at h
    · exact absurd h (by simp)
    · split at h
      · split at h
        · exact absurd h (by simp)
        · split at h
          · exact absurd h (by simp)
          · simp only [Prod.mk.injEq, Option.some.injEq] at h
            exact h.1.symm
      · simp only [Prod.mk.injEq, Option.some.injEq] at h
        exact h.1.symm

/-- The one-step unfolding of the markdown line loop. -/
theorem mdLoop_cons (skip : Bool) (l : Line) (rest : List Line) :
    mdLoop skip (l :: rest) =
      match mdRules l with
      | (none, sk, m) =>
        ((mdLoop (skip || sk) rest).1, m || (mdLoop (skip || sk) rest).2)
      | (some out, _, m) =>
        if skip then
          ((mdLoop (!(stripL out).isEmpty) rest).1,
            m || (mdLoop (!(stripL out).isEmpty) rest).2)
        else (out :: (mdLoop skip rest).1, m || (mdLoop skip rest).2) := rfl

/-- While suppressing, a non-blank line (that is not itself rewritten by
the install or header rules) is dropped and suppression continues. -/
theorem mdLoop_skip_nonblank {l : Line} (rest : List Line)
    (hnb : (stripL l).isEmpty = false)
    (hpip : containsS pipInstallS l = false)
    (hsave : containsS saveYourWorkS (lowerL l) = false) :
    (mdLoop true (l :: rest)).1 = (mdLoop true rest).1 := by
  rw [mdLoop_cons]
  rcases hr : mdRules l with ⟨o, sk, m⟩
  cases o with
  | none => simp [hr]
  | some out =>
    have hout : out = l := mdRules_emit_eq hpip hsave hr
    subst hout
    simp [hr, hnb]

/-- The whole suppression window: every non-blank line of the window is
dropped, the terminating blank line is itself dropped while clearing
the flag, and processing resumes with the remaining lines in the
initial (non-suppressing) state. -/
theorem mdLoop_suppress (mid : List Line)
    (hmid : ∀ l ∈ mid, (stripL l).isEmpty = false ∧ containsS pipInstallS l = false ∧
      containsS saveYourWorkS (lowerL l) = false)
    (blank : Line) (hb : (stripL blank).isEmpty = true) (rest : List Line) :
    (mdLoop true (mid ++ blank :: rest)).1 = (mdLoop false rest).1 := by
  induction mid with
  | nil =>
    rw [List.nil_append, mdLoop_cons]
    simp [mdRules_blank hb, hb]
  | cons hd tl ih =>
    obtain ⟨h1, h2, h3⟩ := hmid hd (by simp)
    rw [List.cons_append]
    rw [mdLoop_skip_nonblank (tl ++ blank :: rest) h1 h2 h3]
    exact ih (fun l hl => hmid l (by simp [hl]))

/-- C3 counterexample: the terminating blank line of a suppressed
numbered item is dropped, not emitted — the cleaned cell resumes at the
line after the blank. -/
theorem c3_counterexample :
    clean_markdown_cell ["1. Use jovian clone now\n".data, "second line\n".data,
      "third line\n".data, "\n".data, "after\n".data] = (["after\n".data], true) := by
  decide

/-- C3 (amended): a numbered-list line matching the clone removal rule
drops itself and every following non-blank line of the item, drops the
terminating blank line too while clearing the suppression flag, and
emission resumes at the first line after that blank — the surviving
output equals the untouched processing of the remaining lines. -/
theorem c3_suppression_scope (t : Line) (mid : List Line) (blank : Line) (rest : List Line)
    (htc : containsS cloneS t = true)
    (htp : containsS pipInstallS t = false)
    (htn : isNumberedStart t = true)
    (hmid : ∀ l ∈ mid, (stripL l).isEmpty = false ∧ containsS pipInstallS l = false ∧
      containsS saveYourWorkS (lowerL l) = false)
    (hb : (stripL blank).isEmpty = true) :
    (mdLoop false (t :: (mid ++ blank :: rest))).1 = (mdLoop false rest).1 := by
  have hrt : mdRules t = (none, true, true) := by
    have h1 : mdLine1 t = t := by simp [mdLine1, htp]
    unfold mdRules
    rw [h1]
    simp [htc, htn]
  rw [mdLoop_cons]
  simp only [hrt, Bool.false_or]
  exact mdLoop_suppress mid hmid blank hb rest

theorem c3_witness :
    (mdLoop false ("1. Run jovian clone abc\n".data ::
      (["more words\n".data, "still more\n".data] ++ "\n".data :: ["after\n".data]))).1 =
      (mdLoop false ["after\n".data]).1 :=
  c3_suppression_scope _ _ _ _ (by decide) (by decide) (by decide) (by decide) (by decide)

theorem fix_notebook_eq (tag : Line) (L : List Line) :
    fix_notebook tag L = L.take 2 ++ tag :: "\n".data :: "\n".data :: L.drop 2 := by
  match L with
  | [] => rfl
  | [a] => rfl
  | a :: b :: t => rfl

theorem rct_append {pre : List Line} (rest : List Line)
    (h : ∀ l ∈ pre, isAnchorLine l = false) :
    remove_colab_tag (pre ++ rest) = pre ++ remove_colab_tag rest := by
  induction pre with
  | nil => simp
  | cons hd tl ih =>
    have hh := h hd (by simp)
    simp only [List.cons_append, remove_colab_tag, hh, Bool.false_eq_true, if_false]
    rw [show tl.append rest = tl ++ rest from rfl, ih (fun l hl => h l (by simp [hl]))]

/-- C7 counterexample: injecting the badge into a first cell whose third
line is blank and removing it loses that blank line — the round trip is
not byte-for-byte. -/
theorem c7_counterexample :
    remove_colab_tag (fix_notebook
        (generate_colab_tag "https://github.com/JovianHQ/notebooks/blob/main/a/b.ipynb".data)
        ["a\n".data, "b\n".data, "\n".data, "c\n".data]) =
      ["a\n".data, "b\n".data, "c\n".data] ∧
    (["a\n".data, "b\n".data, "c\n".data] : List Line) ≠
      ["a\n".data, "b\n".data, "\n".data, "c\n".data] :=
  ⟨by decide, by decide⟩

/-- C7 (amended): the inject-then-remove round trip restores the first
cell exactly, provided the badge block contains the anchor markers and
the closing tag, no line before the insertion point (the first two
lines) already looks like an anchor line, and the line right after the
insertion point — if any — is not blank (the remover also eats blank
lines that immediately follow the removed block). -/
theorem c7_badge_roundtrip (tag : Line) (L : List Line)
    (htagA : isAnchorLine tag = true)
    (htagC : containsS closeAS tag = true)
    (hpre : ∀ l ∈ L.take 2, isAnchorLine l = false)
    (hafter : (L.drop 2).head?.all (fun l => !(stripL l).isEmpty) = true) :
    remove_colab_tag (fix_notebook tag L) = L := by
  rw [fix_notebook_eq, rct_append _ hpre]
  have hstep : remove_colab_tag (tag :: "\n".data :: "\n".data :: L.drop 2) =
      dropBlock (tag :: "\n".data :: "\n".data :: L.drop 2) := by
    simp [remove_colab_tag, htagA]
  rw [hstep]
  have hblock : dropBlock (tag :: "\n".data :: "\n".data :: L.drop 2) =
      ("\n".data :: "\n".data :: L.drop 2).dropWhile (fun u => (stripL u).isEmpty) := by
    simp [dropBlock, htagC]
  rw [hblock]
  have hnl : ((fun u => (stripL u).isEmpty) "\n".data : Bool) = true := by decide
  rw [List.dropWhile_cons, if_pos (by exact hnl), List.dropWhile_cons, if_pos (by exact hnl)]
  cases hd2 : L.drop 2 with
  | nil =>
    simp only [List.dropWhile_nil, List.append_nil]
    have := List.take_append_drop 2 L
    rw [hd2, List.append_nil] at this
    exact this
  | cons d dt =>
    have hda : (d :: dt).head?.all (fun l => !(stripL l).isEmpty) = true := by
      rw [← hd2]
      exact hafter
    have hd : (stripL d).isEmpty = false := by
      simpa using hda
    rw [List.dropWhile_cons, if_neg (by simp [hd])]
    rw [← hd2]
    exact List.take_append_drop 2 L

theorem c7_witness :
    remove_colab_tag (fix_notebook
        (generate_colab_tag "https://github.com/JovianHQ/notebooks/blob/main/a/b.ipynb".data)
        ["a\n".data, "b\n".data, "c\n".data]) = ["a\n".data, "b\n".data, "c\n".data] :=
  c7_badge_roundtrip _ _ (by decide) (by decide) (by decide) (by decide)

/-- C8 counterexample: a markdown cell whose `source` is a single string
is accepted and scanned, but after editing its `source` has become a
LIST — the original representation is not preserved. -/
theorem c8_counterexample :
    processCell ⟨CT.markdown, some (.str "Visit jovian.com/forum today".data)⟩ =
      some ⟨CT.markdown, some (.list [])⟩ := by decide

/-- C8 (amended): the cell cleaners accept both source representations
and scan the same normalized lines for both (a string is scanned as a
one-line list), so classification and cleaning agree on the two
representations of the same text; a cell the sanitizer leaves alone
keeps its representation, but any edited cell gets the list
representation; and the badge injector `fix_notebook` accepts only the
list representation — on a string source the `insert` call raises. -/
theorem c8_source_representation :
    (∀ c c' : Cell, processCell c = some c' →
      c' = c ∨ ∃ ls, c'.source = some (.list ls)) ∧
    (∀ tag s : Line, fixNotebookSrc tag (.str s) = none) ∧
    (∀ (tag : Line) (ls : List Line),
      fixNotebookSrc tag (.list ls) = some (.list (fix_notebook tag ls))) ∧
    (∀ (t : CT) (s : Line), s ≠ [] →
      Option.map cellLines (processCell ⟨t, some (.str s)⟩) =
        Option.map cellLines (processCell ⟨t, some (.list [s])⟩)) := by
  refine ⟨?_, fun _ _ => rfl, fun _ _ => rfl, ?_⟩
  · intro c c' h
    unfold processCell at h
    split at h
    · exact Or.inl (Option.some.inj h).symm
    · split at h
      · split at h
        · exact absurd h (by simp)
        · split at h
          · rw [← Option.some.inj h]
            exact Or.inr ⟨_, rfl⟩
          · exact Or.inl (Option.some.inj h).symm
      · simp only [] at h
        split at h
        · exact absurd h (by simp)
        · split at h
          · split at h
            · rw [← Option.some.inj h]
              exact Or.inr ⟨_, rfl⟩
            · exact Or.inl (Option.some.inj h).symm
          · exact Or.inl (Option.some.inj h).symm
      · exact Or.inl (Option.some.inj h).symm
  · intro t s hs
    have hs' : s.isEmpty = false := by
      cases s
      · exact absurd rfl hs
      · rfl
    have hfl : flatText ⟨t, some (.list [s])⟩ = s := by simp [flatText]
    cases t with
    | code =>
      simp only [processCell, truthySrc, cellLines, hs', Bool.not_false, List.isEmpty_cons,
        Bool.true_eq_false, if_false]
      rcases hcc : clean_code_cell [s] with ⟨cl, m, d⟩
      cases d
      · cases m <;> simp [cellLines]
      · simp
    | markdown =>
      simp only [processCell, truthySrc, hs', Bool.not_false, List.isEmpty_cons,
        Bool.true_eq_false, if_false]
      rw [hfl]
      simp only [flatText, cellLines]
      split
      · rfl
      · split
        · rcases hmm : clean_markdown_cell [s] with ⟨cl, m⟩
          cases m <;> simp [cellLines]
        · simp [cellLines]
    | other =>
      simp [processCell, truthySrc, cellLines, hs']

theorem c8_witness :
    Option.map cellLines
        (processCell ⟨CT.code, some (.str "import jovian\nimport numpy\n".data)⟩) =
      Option.map cellLines
        (processCell ⟨CT.code, some (.list ["import jovian\nimport numpy\n".data])⟩) :=
  c8_source_representation.2.2.2 CT.code "import jovian\nimport numpy\n".data (by decide)

theorem containsS_trans {p q l : Line} (hpq : containsS p q = true)
    (hql : containsS q l = true) : containsS p l = true := by
  rw [containsS_spec] at hpq hql ⊢
  exact hpq.trans hql

theorem containsS_of_isPrefixOf {p q l : Line} (hpq : containsS p q = true)
    (h : q.isPrefixOf l = true) : containsS p l = true :=
  containsS_mono ( List.isPrefixOf_iff_prefix.1 h).isInfix hpq

/-- A code cell none of whose lines mentions the dependency name passes
through the code cleaner unchanged and unmodified. -/
theorem codeLoop_no_jovian (lines : List Line)
    (h : ∀ l ∈ lines, containsS jovianS l = false) :
    codeLoop lines = some (lines, false) := by
  induction lines with
  | nil => rfl
  | cons l rest ih =>
    have hj : containsS jovianS l = false := h l (by simp)
    have hjs : ∀ q : Line, containsS jovianS q = true → q.isPrefixOf (stripL l) = false := by
      intro q hq
      by_contra hb
      have hb' : q.isPrefixOf (stripL l) = true := by simpa using hb
      have := containsS_of_strip (containsS_of_isPrefixOf hq hb')
      rw [this] at hj
      exact Bool.noConfusion hj
    have hjeq : ∀ q : Line, containsS jovianS q = true → (stripL l == q) = false := by
      intro q hq
      by_contra hb
      have hb' : stripL l = q := by simpa using hb
      have : containsS jovianS l = true := containsS_of_strip (hb' ▸ hq)
      rw [this] at hj
      exact Bool.noConfusion hj
    have g1 : (stripL l == commitCallS) = false := hjeq _ (by decide)
    have g2 : commitOpenS.isPrefixOf (stripL l) = false := hjs _ (by decide)
    have g3 : (stripL l == qcommitS) = false := hjeq _ (by decide)
    have g4 : qjovS.isPrefixOf (stripL l) = false := hjs _ (by decide)
    have g5 : (stripL l == importJovS) = false := hjeq _ (by decide)
    have g6 : importJovSpS.isPrefixOf (stripL l) = false := hjs _ (by decide)
    have g7 : fromJovS.isPrefixOf (stripL l) = false := hjs _ (by decide)
    unfold codeLoop
    rw [ih (fun x hx => h x (by simp [hx]))]
    simp [g1, g2, g3, g4, g5, g6, g7, hj]

/-- Any tame cell is either deleted or returned unchanged by the
sanitizer's per-cell step. -/
theorem processCell_tame (c : Cell) (h : tameCell c = true) :
    processCell c = none ∨ processCell c = some c := by
  by_cases ht : truthySrc c.source = true
  · rcases hct : c.ctype with _ | _ | _
    · -- code
      have hcode : (cellLines c).all (fun l => !(containsS jovianS l)) = true := by
        unfold tameCell at h
        rw [hct] at h
        exact h
      have hall : ∀ l ∈ cellLines c, containsS jovianS l = false := by
        intro l hl
        have := List.all_eq_true.1 hcode l hl
        simpa using this
      have hcl := codeLoop_no_jovian (cellLines c) hall
      unfold processCell
      rw [ht, hct]
      simp only [Bool.true_eq_false, if_false, clean_code_cell, hcl]
      by_cases hb : allBlank (cellLines c) = true
      · rw [hb]
        exact Or.inl rfl
      · have hb' : allBlank (cellLines c) = false := by simpa using hb
        rw [hb']
        exact Or.inr (by simp)
    · -- markdown
      have htame : containsS jovianS (flatText c) = false ∧
          containsS pipInstallS (flatText c) = false ∧
          containsS forumS (lowerL (flatText c)) = false ∧
          containsS communityS (lowerL (flatText c)) = false := by
        unfold tameCell at h
        rw [hct] at h
        simp only [Bool.and_eq_true, Bool.not_eq_true'] at h
        exact ⟨h.1.1.1, h.1.1.2, h.1.2, h.2⟩
      obtain ⟨hjov, hpip, hfor, hcom⟩ := htame
      have hcommit : containsS commitS (flatText c) = false := by
        by_contra hb
        have hb' : containsS commitS (flatText c) = true := by simpa using hb
        have := containsS_trans (p := jovianS) (by decide) hb'
        rw [this] at hjov
        exact Bool.noConfusion hjov
      have hclone : containsS cloneS (flatText c) = false := by
        by_contra hb
        have hb' : containsS cloneS (flatText c) = true := by simpa using hb
        have := containsS_trans (p := jovianS) (by decide) hb'
        rw [this] at hjov
        exact Bool.noConfusion hjov
      have hq : containsS qjovS (flatText c) = false := by
        by_contra hb
        have hb' : containsS qjovS (flatText c) = true := by simpa using hb
        have := containsS_trans (p := jovianS) (by decide) hb'
        rw [this] at hjov
        exact Bool.noConfusion hjov
      unfold processCell
      rw [ht, hct]
      simp only [Bool.true_eq_false, if_false, hcommit, hclone, hq, hpip, hfor, hcom,
        Bool.or_self, Bool.false_or, Bool.or_false, Bool.false_eq_true, if_false]
      by_cases hs : stripL (flatText c) = saveSentence1 ∨ stripL (flatText c) = saveSentence2
      · rw [if_pos hs]
        exact Or.inl rfl
      · rw [if_neg hs]
        exact Or.inr rfl
    · -- other
      unfold processCell
      rw [ht, hct]
      simp
  · have ht' : truthySrc c.source = false := by simpa using ht
    refine Or.inr ?_
    unfold processCell
    rw [ht']
    simp

theorem filterMap_id_of_fix {p : Cell → Option Cell} {l : List Cell}
    (h : ∀ c ∈ l, p c = some c) : l.filterMap p = l := by
  induction l with
  | nil => rfl
  | cons hd tl ih =>
    rw [List.filterMap_cons, h hd (by simp), ih (fun c hc => h c (by simp [hc]))]

/-- C2 counterexample: a second sanitizer pass is not a no-op — the code
cell `pip install jovianjovian ` is only edited by the first pass (to
`pip install jovian`), and the second pass rewrites that result to an
empty install line and deletes the now-blank cell. -/
theorem c2_counterexample :
    clean_notebook (clean_notebook
        [⟨CT.code, some (.list ["pip install jovianjovian \n".data])⟩]) ≠
      clean_notebook [⟨CT.code, some (.list ["pip install jovianjovian \n".data])⟩] ∧
    clean_notebook [⟨CT.code, some (.list ["pip install jovianjovian \n".data])⟩] =
      [⟨CT.code, some (.list ["pip install jovian".data])⟩] ∧
    clean_notebook [⟨CT.code, some (.list ["pip install jovian".data])⟩] = [] :=
  ⟨by decide, by decide, by decide⟩

/-- C2 (amended): the sanitizer is idempotent on documents whose cells
are "tame": code cells never mentioning the dependency name and
markdown cells whose text contains no classifier trigger substring
(dependency name, install directive, forum or community reference).
For such documents every cell is either deleted or kept unchanged, so a
second pass returns the first pass's output exactly. -/
theorem c2_idempotent_tame (cells : List Cell) (h : ∀ c ∈ cells, tameCell c = true) :
    clean_notebook (clean_notebook cells) = clean_notebook cells := by
  unfold clean_notebook
  have h2 : ∀ c' ∈ cells.filterMap processCell, processCell c' = some c' := by
    intro c' hc'
    obtain ⟨c, hc, hpc⟩ := List.mem_filterMap.1 hc'
    rcases processCell_tame c (h c hc) with h0 | h0
    · rw [h0] at hpc
      exact Option.noConfusion hpc
    · rw [h0] at hpc
      have : c = c' := Option.some.inj hpc
      rw [← this, h0, this]
  exact filterMap_id_of_fix h2

theorem c2_witness :
    clean_notebook (clean_notebook
        [⟨CT.code, some (.list ["import numpy\n".data, "print(1)\n".data])⟩,
          ⟨CT.markdown, some (.list ["# Training a model\n".data])⟩,
          ⟨CT.code, some (.list ["\n".data])⟩]) =
      clean_notebook
        [⟨CT.code, some (.list ["import numpy\n".data, "print(1)\n".data])⟩,
          ⟨CT.markdown, some (.list ["# Training a model\n".data])⟩,
          ⟨CT.code, some (.list ["\n".data])⟩] :=
  c2_idempotent_tame _ (by decide)

/-- Every line the markdown rule chain emits has passed the commit rule:
the emitted value cannot contain the commit-action name. -/
theorem mdRules_emit_no_commit {l out : Line} {s m : Bool}
    (h : mdRules l = (some out, s, m)) : containsS commitS out = false := by
  unfold mdRules at h
  simp only [] at h
  split at h
  · exact absurd h (by simp)
  · split at h
    · exact absurd h (by simp)
    · rename_i hC
      have hC' : containsS commitS (mdLine2 l) = false := by
        simpa using hC
      split at h
      · split at h
        · exact absurd h (by simp)
        · split at h
          · exact absurd h (by simp)
          · simp only [Prod.mk.injEq, Option.some.injEq] at h
            rw [← h.1]
            exact hC'
      · simp only [Prod.mk.injEq, Option.some.injEq] at h
        rw [← h.1]
        exact hC'

/-- If the rule chain reports no modification for a line, that line
cannot contain the commit-action name (the pip rule would have changed
it, the header rule would have flagged it, or the commit rule would
have dropped it and flagged it). -/
theorem mdRules_unmodified_no_commit {l : Line} (h : (mdRules l).2.2 = false) :
    containsS commitS l = false := by
  unfold mdRules at h
  simp only [] at h
  split at h
  · simp at h
  · split at h
    · simp at h
    · rename_i hC
      have hfin : ((mdLine1 l != l) || mdHdrCond l) = false := by
        split at h
        · split at h
          · simp at h
          · split at h
            · simp at h
            · simp at h
        · simpa using h
      have hm1 : mdLine1 l = l := by
        have := (Bool.or_eq_false_iff.1 hfin).1
        simpa using this
      have hhdr : mdHdrCond l = false := (Bool.or_eq_false_iff.1 hfin).2
      have h2 : mdLine2 l = l := by
        simp [mdLine2, hhdr, hm1]
      rw [h2] at hC
      simpa using hC

/-- No line of the markdown loop's output contains the commit name. -/
theorem mdLoop_no_commit (lines : List Line) :
    ∀ skip, ∀ l ∈ (mdLoop skip lines).1, containsS commitS l = false := by
  induction lines with
  | nil =>
    intro skip l hl
    simp [mdLoop] at hl
  | cons hd tl ih =>
    intro skip l hl
    rw [mdLoop_cons] at hl
    rcases hr : mdRules hd with ⟨o, sk, m⟩
    rw [hr] at hl
    cases o with
    | none =>
      simp only [] at hl
      exact ih _ l hl
    | some out =>
      simp only [] at hl
      by_cases hsk : skip
      · rw [if_pos hsk] at hl
        simp only [] at hl
        exact ih _ l hl
      · rw [if_neg hsk] at hl
        simp only [List.mem_cons] at hl
        rcases hl with rfl | hl
        · exact mdRules_emit_no_commit hr
        · exact ih _ l hl

/-- If the markdown loop reports the cell unmodified, no input line
contains the commit name. -/
theorem mdLoop_unmodified_no_commit (lines : List Line) :
    ∀ skip, (mdLoop skip lines).2 = false → ∀ l ∈ lines, containsS commitS l = false := by
  induction lines with
  | nil =>
    intro skip _ l hl
    simp at hl
  | cons hd tl ih =>
    intro skip hmod l hl
    rw [mdLoop_cons] at hmod
    rcases hr : mdRules hd with ⟨o, sk, m⟩
    rw [hr] at hmod
    have hparts : m = false ∧ ∃ skip', (mdLoop skip' tl).2 = false := by
      cases o with
      | none =>
        simp only [] at hmod
        have := Bool.or_eq_false_iff.1 hmod
        exact ⟨this.1, _, this.2⟩
      | some out =>
        simp only [] at hmod
        by_cases hsk : skip
        · rw [if_pos hsk] at hmod
          simp only [] at hmod
          have := Bool.or_eq_false_iff.1 hmod
          exact ⟨this.1, _, this.2⟩
        · rw [if_neg hsk] at hmod
          simp only [] at hmod
          have := Bool.or_eq_false_iff.1 hmod
          exact ⟨this.1, _, this.2⟩
    obtain ⟨hm, skip', htl⟩ := hparts
    simp only [List.mem_cons] at hl
    rcases hl with rfl | hl
    · exact mdRules_unmodified_no_commit (by rw [hr]; exact hm)
    · exact ih skip' htl l hl

theorem renumTail_eq {u g2 : Line} (h : renumTail u = some g2) :
    g2 = u.takeWhile (fun c => c ≠ '\n') := by
  unfold renumTail at h
  simp only [] at h
  split at h
  · exact (Option.some.inj h).symm
  · exact (Option.some.inj h).symm
  · exact Option.noConfusion h

theorem renumFindWS_within {t g2 : Line} :
    ∀ k, renumFindWS t k = some g2 → g2 <:+: t := by
  intro k
  induction k with
  | zero =>
    intro h
    exact Option.noConfusion h
  | succ n ih =>
    intro h
    unfold renumFindWS at h
    split at h
    · rename_i heq
      rw [renumTail_eq heq] at h
      have hg : g2 = (t.drop (n + 1)).takeWhile (fun c => c ≠ '\n') :=
        (Option.some.inj h).symm
      rw [hg]
      exact ( List.takeWhile_prefix _).isInfix.trans (List.drop_suffix _ _).isInfix
    · exact ih h

theorem renumMatch_within {s g2 : Line} (h : renumMatch s = some g2) : g2 <:+: s := by
  unfold renumMatch at h
  simp only [] at h
  split at h
  · exact Option.noConfusion h
  · split at h
    · rename_i t heq
      have h1 : g2 <:+: t := renumFindWS_within _ h
      have h2 : t <:+ s := by
        have hdrop := List.drop_suffix (s.takeWhile Char.isDigit).length s
        rw [heq] at hdrop
        exact (List.suffix_cons _ _).trans hdrop
      exact h1.trans h2.isInfix
    · exact Option.noConfusion h

theorem natToDecGo_digits :
    ∀ (fuel n : Nat), ∀ c ∈ natToDecGo fuel n, ∃ k, k < 10 ∧ c = Char.ofNat (48 + k) := by
  intro fuel
  induction fuel with
  | zero =>
    intro n c hc
    simp [natToDecGo] at hc
  | succ f ih =>
    intro n c hc
    unfold natToDecGo at hc
    split at hc
    · rename_i hn
      simp only [List.mem_singleton] at hc
      exact ⟨n, hn, hc⟩
    · rw [List.mem_append] at hc
      rcases hc with hc | hc
      · exact ih _ c hc
      · simp only [List.mem_singleton] at hc
        exact ⟨n % 10, Nat.mod_lt _ (by omega), hc⟩

theorem natToDec_ne_j {n : Nat} : ∀ c ∈ natToDec n, c ≠ 'j' := by
  intro c hc
  obtain ⟨k, hk, hck⟩ := natToDecGo_digits (n + 1) n c hc
  subst hck
  have hall : ∀ k : Nat, k < 10 → Char.ofNat (48 + k) ≠ 'j' := by decide
  exact hall k hk

/-- An occurrence of the commit name in `pre ++ g` with `pre` free of
the letter `j` lies entirely inside `g`. -/
theorem commit_infix_append {pre g : Line} (hpre : ∀ c ∈ pre, c ≠ 'j')
    (h : containsS commitS (pre ++ g) = true) : containsS commitS g = true := by
  rw [containsS_spec] at h ⊢
  induction pre with
  | nil => simpa using h
  | cons a t ih =>
    rw [List.cons_append, List.infix_cons_iff] at h
    rcases h with h | h
    · exfalso
      have hc : commitS = 'j' :: "ovian.commit".data := rfl
      rw [hc] at h
      have := (List.cons_prefix_cons.1 h).1
      exact hpre a (by simp) this.symm
    · exact ih (fun c hc => hpre c (by simp [hc])) h

/-- One renumbering step cannot introduce the commit name. -/
theorem renumStep_no_commit (st : Nat × Bool) {l : Line}
    (h : containsS commitS l = false) :
    containsS commitS (renumStep st l).2 = false := by
  unfold renumStep
  rcases hm : renumMatch (lstripL l) with _ | g2
  · simp only []
    split <;> simpa using h
  · simp only []
    by_contra hb
    have hb' : containsS commitS
        (List.replicate (l.length - (lstripL l).length) ' ' ++
          natToDec st.1 ++ '.' :: ' ' :: g2) = true := by
      simpa using hb
    have hassoc : List.replicate (l.length - (lstripL l).length) ' ' ++
        natToDec st.1 ++ '.' :: ' ' :: g2 =
        (List.replicate (l.length - (lstripL l).length) ' ' ++
          natToDec st.1 ++ ['.', ' ']) ++ g2 := by
      simp
    rw [hassoc] at hb'
    have hpre : ∀ c ∈ List.replicate (l.length - (lstripL l).length) ' ' ++
        natToDec st.1 ++ ['.', ' '], c ≠ 'j' := by
      intro c hc
      simp only [List.append_assoc, List.mem_append] at hc
      rcases hc with hc | hc | hc
      · rw [List.eq_of_mem_replicate hc]
        decide
      · exact natToDec_ne_j c hc
      · simp only [List.mem_cons, List.not_mem_nil, or_false] at hc
        rcases hc with rfl | rfl <;> decide
    have hg : containsS commitS g2 = true := commit_infix_append hpre hb'
    have hg2 : containsS commitS l = true :=
      containsS_mono ((renumMatch_within hm).trans (lstripL_suffix l).isInfix) hg
    rw [hg2] at h
    exact Bool.noConfusion h

/-- The renumbering pass cannot introduce the commit name. -/
theorem renumGo_no_commit (ls : List Line) :
    ∀ st, (∀ l ∈ ls, containsS commitS l = false) →
      ∀ l' ∈ renumGo st ls, containsS commitS l' = false := by
  induction ls with
  | nil =>
    intro st _ l' hl'
    simp [renumGo] at hl'
  | cons hd tl ih =>
    intro st h l' hl'
    unfold renumGo at hl'
    simp only [List.mem_cons] at hl'
    rcases hl' with rfl | hl'
    · exact renumStep_no_commit st (h hd (by simp))
    · exact ih _ (fun l hl => h l (by simp [hl])) l' hl'

/-- If the flattened text of a cell avoids a substring, so does every
normalized source line. -/
theorem cellLines_no_sub {p : Line} {c : Cell} (hp : containsS p (flatText c) = false) :
    ∀ l ∈ cellLines c, containsS p l = false := by
  intro l hl
  by_contra hb
  have hb' : containsS p l = true := by simpa using hb
  rcases hsrc : c.source with _ | s
  · rw [cellLines, hsrc] at hl
    simp at hl
  · rcases s with s | ls
    · rw [cellLines, hsrc] at hl
      simp only [List.mem_singleton] at hl
      subst hl
      rw [flatText, hsrc] at hp
      rw [hb'] at hp
      exact Bool.noConfusion hp
    · rw [cellLines, hsrc] at hl
      rw [flatText, hsrc] at hp
      rw [containsS_flatten hl hb'] at hp
      exact Bool.noConfusion hp

/-- C1 counterexample: a code cell mentioning the community forum
survives the sanitizer untouched and its flattened text still contains
the forbidden substring. -/
theorem c1_counterexample :
    clean_notebook [⟨CT.code, some (.list ["# see the community forum\n".data])⟩] =
      [⟨CT.code, some (.list ["# see the community forum\n".data])⟩] ∧
    containsS forumPhrase1
      (flatText ⟨CT.code, some (.list ["# see the community forum\n".data])⟩) = true :=
  ⟨by decide, by decide⟩

/-- C1 (amended): after sanitization, no surviving MARKDOWN cell has a
source line containing the commit-action name.  (The guarantee is per
line, not on the flattened text, and does not extend to code cells nor
to the clone/help-form/forum substrings — see the counterexample.) -/
theorem c1_markdown_no_commit (cells : List Cell) (c' : Cell)
    (hm : c' ∈ clean_notebook cells) (hmd : c'.ctype = CT.markdown) :
    ∀ l ∈ cellLines c', containsS commitS l = false := by
  obtain ⟨c, hc, hpc⟩ := List.mem_filterMap.1 hm
  unfold processCell at hpc
  split at hpc
  · -- falsy source: cell returned unchanged, flattened text is empty
    rename_i ht
    have hcc : c = c' := Option.some.inj hpc
    subst hcc
    have ht' : truthySrc c.source = false := by simpa using ht
    have hflat0 : flatText c = [] := by
      rcases hsrc : c.source with _ | s
      · simp [flatText, hsrc]
      · rcases s with s | ls
        · rw [hsrc] at ht'
          have hsnil : s = [] := by simpa [truthySrc, List.isEmpty_iff] using ht'
          simp [flatText, hsrc, hsnil]
        · rw [hsrc] at ht'
          have hlnil : ls = [] := by simpa [truthySrc, List.isEmpty_iff] using ht'
          simp [flatText, hsrc, hlnil]
    have hflat : containsS commitS (flatText c) = false := by
      rw [hflat0]
      decide
    exact cellLines_no_sub hflat
  · split at hpc
    · -- code cell: its type contradicts markdown
      rename_i hct
      exfalso
      have hty : c'.ctype = c.ctype := by
        split at hpc
        · exact Option.noConfusion hpc
        · split at hpc
          · rw [← Option.some.inj hpc]
          · rw [← Option.some.inj hpc]
      rw [hmd, hct] at hty
      exact CT.noConfusion hty
    · -- markdown cell
      rename_i hct
      simp only [] at hpc
      split at hpc
      · exact Option.noConfusion hpc
      · split at hpc
        · -- routed
          split at hpc
          · -- modified: the cleaned and renumbered lines
            rename_i hmod
            have hc' : c' =
                { ctype := c.ctype,
                  source := some (Src.list (clean_markdown_cell (cellLines c)).1) } :=
              (Option.some.inj hpc).symm
            have hlines : cellLines c' = (clean_markdown_cell (cellLines c)).1 := by
              rw [hc']
              rfl
            rw [hlines]
            have hmod' : (mdLoop false (cellLines c)).2 = true := by
              revert hmod
              unfold clean_markdown_cell
              simp only []
              intro hmod
              exact hmod
            unfold clean_markdown_cell
            simp only [hmod', if_true]
            intro l hl
            exact renumGo_no_commit _ _ (mdLoop_no_commit (cellLines c) false) l hl
          · -- routed but unmodified: original lines, shown commit-free
            rename_i hmod
            have hcc : c = c' := Option.some.inj hpc
            subst hcc
            have hmod' : (mdLoop false (cellLines c)).2 = false := by
              revert hmod
              unfold clean_markdown_cell
              simp only []
              intro hmod
              simpa using hmod
            exact mdLoop_unmodified_no_commit (cellLines c) false hmod'
        · -- not routed: the flattened text contains no trigger substring
          rename_i hroute
          have hcc : c = c' := Option.some.inj hpc
          subst hcc
          have hflat : containsS commitS (flatText c) = false := by
            by_contra hb
            exact hroute
              (by simp [show containsS commitS (flatText c) = true by simpa using hb])
          exact cellLines_no_sub hflat
    · -- other cell type: contradicts markdown
      rename_i hct
      exfalso
      have hty : c'.ctype = c.ctype := by rw [← Option.some.inj hpc]
      rw [hmd, hct] at hty
      exact CT.noConfusion hty

theorem c1_witness :
    containsS commitS "hello\n".data = false :=
  c1_markdown_no_commit
    [⟨CT.markdown, some (.list ["jovian.commit()\n".data, "hello\n".data])⟩]
    ⟨CT.markdown, some (.list ["hello\n".data])⟩ (by decide) rfl
    "hello\n".data (by decide)
